import Mathlib

/-!
Verification of the prime-order-group abstraction layer of the voprf crate
(`src/group/mod.rs`). The crate file defines the `Group` trait: element and
scalar types with fixed-length canonical encodings, hash-to-curve and
hash-to-scalar operations, serialization, random sampling and inversion,
plus the two domain-separation prefix constants. The trait is shallowly
embedded here; a backend (the trait only declares most operations, the
concrete backends implement them) is modelled as the prime-order group
`ZMod p` with a fixed-length little-endian canonical byte encoding, which
is what the specification describes for every backend.
-/

namespace Voprf

/-- A byte, as in the `u8` values making up encodings. -/
abbrev Byte := Fin 256

/-- The two error kinds of this layer, from `crate::Error`: `Input` for
rejected hash inputs and `Deserialization` for rejected encodings. -/
inductive Error
  | Input
  | Deserialization
deriving DecidableEq

/-- Modelled from the spec: the protocol `Mode` (defined in `crate::voprf`,
not part of the given source file); the spec mentions a base mode and a
verifiable mode. Only its identity matters here. -/
inductive Mode
  | Base
  | Verifiable
deriving DecidableEq

/-- Interpret a character of an ASCII string literal as a byte, as the Rust
byte-string literal `*b"..."` does. -/
def byteOfChar (c : Char) : Byte :=
  ⟨c.toNat % 256, Nat.mod_lt _ (by norm_num)⟩

/-- `pub(crate) const STR_HASH_TO_SCALAR: [u8; 13] = *b"HashToScalar-";`
(src/group/mod.rs line 30). -/
def STR_HASH_TO_SCALAR : List Byte :=
  "HashToScalar-".toList.map byteOfChar

/-- `pub(crate) const STR_HASH_TO_GROUP: [u8; 12] = *b"HashToGroup-";`
(src/group/mod.rs line 31). -/
def STR_HASH_TO_GROUP : List Byte :=
  "HashToGroup-".toList.map byteOfChar

/-- Concatenation of the parts of an `&[&[u8]]` input. -/
def concatParts : List (List Byte) → List Byte
  | [] => []
  | x :: xs => x ++ concatParts xs

/-- Total byte length of an `&[&[u8]]` input: the sum of the part lengths. -/
def inputLenSum (input : List (List Byte)) : Nat :=
  (input.map List.length).sum

/-- Value of a little-endian byte string. -/
def fromBytesLE : List Byte → Nat
  | [] => 0
  | b :: rest => b.val + 256 * fromBytesLE rest

/-- Fixed-length little-endian byte string of a value. -/
def toBytesLE : Nat → Nat → List Byte
  | 0, _ => []
  | k + 1, v => ⟨v % 256, Nat.mod_lt _ (by norm_num)⟩ :: toBytesLE k (v / 256)

/-- Modelled from the spec: the canonical fixed-length encoding a backend
gives its field values (elements and scalars both live in a prime-order
structure); `L` is the backend-chosen byte length. -/
def encodeCanonical (p L : Nat) (x : ZMod p) : List Byte :=
  toBytesLE L (ZMod.val x)

/-- Modelled from the spec: canonical decoding. It accepts exactly the
fixed-length canonical encodings of nonzero values: the length must be
`L`, the value must be reduced (below `p`) and must not be zero (the
identity element, respectively the zero scalar); otherwise it fails with
`Error.Deserialization`. -/
def decodeCanonical (p L : Nat) (b : List Byte) : Except Error (ZMod p) :=
  if b.length = L ∧ fromBytesLE b < p ∧ fromBytesLE b ≠ 0 then
    Except.ok ((fromBytesLE b : Nat) : ZMod p)
  else
    Except.error Error.Deserialization

/-- `Group::identity_elem` (src/group/mod.rs line 106): the identity of the
prime-order group, `0` in the additive model. -/
def identity_elem (p : Nat) : ZMod p := 0

/-- `Group::base_elem` (src/group/mod.rs line 103): the generator, `1` in
the additive model `ZMod p`. -/
def base_elem (p : Nat) : ZMod p := 1

/-- `Group::serialize_elem` (src/group/mod.rs line 109). Modelled from the
spec: fixed-length canonical encoding of an element. -/
def serialize_elem (p L : Nat) (e : ZMod p) : List Byte :=
  encodeCanonical p L e

/-- `Group::deserialize_elem` (src/group/mod.rs lines 111-117). Modelled
from the spec: decodes a canonical encoding, rejecting non-canonical bytes
and the identity element with `Error.Deserialization`. -/
def deserialize_elem (p L : Nat) (b : List Byte) : Except Error (ZMod p) :=
  decodeCanonical p L b

/-- `Group::serialize_scalar` (src/group/mod.rs line 133). Modelled from
the spec: fixed-length canonical encoding of a scalar. -/
def serialize_scalar (p L : Nat) (s : ZMod p) : List Byte :=
  encodeCanonical p L s

/-- `Group::deserialize_scalar` (src/group/mod.rs lines 135-141). Modelled
from the spec: decodes a canonical encoding, rejecting non-canonical bytes
and the zero scalar with `Error.Deserialization`. -/
def deserialize_scalar (p L : Nat) (b : List Byte) : Except Error (ZMod p) :=
  decodeCanonical p L b

/-- `Group::invert_scalar` (src/group/mod.rs lines 122-123): total at the
interface, returning `Self::Scalar` with no error channel. Modelled from
the spec: the multiplicative inverse in the scalar field. -/
def invert_scalar (p : Nat) (s : ZMod p) : ZMod p := s⁻¹

/-- `Group::is_zero_scalar` (src/group/mod.rs lines 125-126). -/
def is_zero_scalar (p : Nat) (s : ZMod p) : Bool := decide (s = 0)

/-- `Group::zero_scalar` (src/group/mod.rs lines 129-130). -/
def zero_scalar (p : Nat) : ZMod p := 0

/-- `Group::random_scalar` (src/group/mod.rs lines 119-120): infallible at
the interface, returning `Self::Scalar` directly. Modelled from the spec:
draws `L` bytes from the caller-supplied random source (a byte stream) and
reduces into the scalar field. -/
def random_scalar (p L : Nat) (rng : Nat → Byte) : ZMod p :=
  ((fromBytesLE ((List.range L).map rng) : Nat) : ZMod p)

/-- `b` is a valid canonical encoding of a non-identity group element. -/
def ValidElemEncoding (p L : Nat) (b : List Byte) : Prop :=
  ∃ e : ZMod p, e ≠ identity_elem p ∧ serialize_elem p L e = b

/-- `b` is a valid canonical encoding of a nonzero scalar. -/
def ValidScalarEncoding (p L : Nat) (b : List Byte) : Prop :=
  ∃ s : ZMod p, s ≠ zero_scalar p ∧ serialize_scalar p L s = b

/-- The hash-function descriptor a ciphersuite exposes (`CS::Hash` with its
`OutputSizeUser` and `BlockSizeUser` data): the output size and the
internal block size, in bytes. -/
structure HashDescriptor where
  outputSize : Nat
  blockSize : Nat

/-- The typenum bound `IsLess<U256>` of the where clauses. -/
def IsLessU256 (a : Nat) : Prop := a < 256

/-- The typenum bound `IsLessOrEqual<BlockSize>` of the where clauses. -/
def IsLessOrEqualBlockSize (cs : HashDescriptor) : Prop :=
  cs.outputSize ≤ cs.blockSize

/-- The where clause of `hash_to_curve`, `hash_to_scalar` and
`hash_to_scalar_with_dst` (src/group/mod.rs lines 65-67, 78-80, 98-100):
`<CS::Hash as OutputSizeUser>::OutputSize: IsLess<U256> +
IsLessOrEqual<<CS::Hash as BlockSizeUser>::BlockSize>`. Evidence of this
proposition is required to invoke any of the three hash operations, the
way the compiled where clause is. -/
def HashToCurveInvocable (cs : HashDescriptor) : Prop :=
  IsLessU256 cs.outputSize ∧ IsLessOrEqualBlockSize cs

/-- Modelled from the spec: the expansion and reduction step of the hash
operations (expand the message tagged by the DST, reduce into the field).
A concrete executable stand-in for the backend expansion. -/
def expandReduce (p : Nat) (msg dst : List Byte) : ZMod p :=
  ((fromBytesLE (msg ++ dst) : Nat) : ZMod p)

/-- `Group::hash_to_scalar_with_dst` (src/group/mod.rs lines 94-100).
Modelled from the spec: fails with `Error.Input` when the combined input
is empty or longer than 65535 bytes, otherwise expands the input tagged by
the caller-supplied DST and reduces to a scalar. -/
def hash_to_scalar_with_dst (p : Nat) (cs : HashDescriptor)
    (_hc : HashToCurveInvocable cs) (input : List (List Byte))
    (dst : List Byte) : Except Error (ZMod p) :=
  if inputLenSum input = 0 ∨ 65535 < inputLenSum input then
    Except.error Error.Input
  else
    Except.ok (expandReduce p (concatParts input) dst)

/-- `Group::hash_to_scalar` (src/group/mod.rs lines 74-86), the default
method body of the trait: builds the DST from `STR_HASH_TO_SCALAR`
concatenated with the context string for the mode and delegates to
`hash_to_scalar_with_dst`. `ctx` stands for the collaborator
`crate::voprf::create_context_string::<CS>` at the fixed ciphersuite. -/
def hash_to_scalar (p : Nat) (cs : HashDescriptor)
    (hc : HashToCurveInvocable cs) (ctx : Mode → List Byte)
    (input : List (List Byte)) (mode : Mode) : Except Error (ZMod p) :=
  hash_to_scalar_with_dst p cs hc input (STR_HASH_TO_SCALAR ++ ctx mode)

/-- `Group::hash_to_curve` (src/group/mod.rs lines 56-67). Modelled from
the spec: same input validation as the scalar hash; the DST is
`STR_HASH_TO_GROUP` concatenated with the context string, and the result
is a group element. -/
def hash_to_curve (p : Nat) (cs : HashDescriptor)
    (_hc : HashToCurveInvocable cs) (ctx : Mode → List Byte)
    (input : List (List Byte)) (mode : Mode) : Except Error (ZMod p) :=
  if inputLenSum input = 0 ∨ 65535 < inputLenSum input then
    Except.error Error.Input
  else
    Except.ok (expandReduce p (concatParts input) (STR_HASH_TO_GROUP ++ ctx mode))

/-- A concrete descriptor (the SHA-512 sizes): 64-byte output, 128-byte
block. -/
def sha512Desc : HashDescriptor := ⟨64, 128⟩

/-- The SHA-512 descriptor satisfies the where clause. -/
theorem sha512Desc_invocable : HashToCurveInvocable sha512Desc :=
  ⟨by norm_num [IsLessU256, sha512Desc], by norm_num [IsLessOrEqualBlockSize, sha512Desc]⟩

/-- A fixed-length encoding has the requested length. -/
theorem length_toBytesLE (k v : Nat) : (toBytesLE k v).length = k := by
  induction k generalizing v with
  | zero => rfl
  | succ k ih => simp [toBytesLE, ih]

/-- Decoding a fixed-length encoding recovers the value when it fits. -/
theorem fromBytesLE_toBytesLE (k v : Nat) (h : v < 256 ^ k) :
    fromBytesLE (toBytesLE k v) = v := by
  induction k generalizing v with
  | zero =>
      simp only [pow_zero, Nat.lt_one_iff] at h
      subst h
      rfl
  | succ k ih =>
      have hdiv : v / 256 < 256 ^ k := by
        rw [Nat.div_lt_iff_lt_mul (by norm_num : (0 : Nat) < 256)]
        calc v < 256 ^ (k + 1) := h
        _ = 256 ^ k * 256 := by rw [pow_succ]
      simp only [toBytesLE, fromBytesLE, ih _ hdiv]
      omega

/-- Re-encoding the value of a byte string at its own length gives back
the byte string. -/
theorem toBytesLE_fromBytesLE (b : List Byte) :
    toBytesLE b.length (fromBytesLE b) = b := by
  induction b with
  | nil => rfl
  | cons hd tl ih =>
      have hlt : hd.val < 256 := hd.isLt
      simp only [List.length_cons]
      rw [toBytesLE]
      congr 1
      · apply Fin.ext
        show (hd.val + 256 * fromBytesLE tl) % 256 = hd.val
        omega
      · have h2 : fromBytesLE (hd :: tl) / 256 = fromBytesLE tl := by
          show (hd.val + 256 * fromBytesLE tl) / 256 = fromBytesLE tl
          omega
        rw [h2]
        exact ih

/-- The length of the concatenated input is the sum of the part lengths. -/
theorem concatParts_length (input : List (List Byte)) :
    (concatParts input).length = inputLenSum input := by
  induction input with
  | nil => rfl
  | cons x xs ih => simp [concatParts, inputLenSum, ih]

/-- Canonical decoding inverts canonical encoding on nonzero values. -/
theorem decodeCanonical_encodeCanonical (p L : Nat) [NeZero p]
    (hL : p ≤ 256 ^ L) (x : ZMod p) (hx : x ≠ 0) :
    decodeCanonical p L (encodeCanonical p L x) = Except.ok x := by
  have hval : ZMod.val x < p := ZMod.val_lt x
  have hfrom : fromBytesLE (toBytesLE L (ZMod.val x)) = ZMod.val x :=
    fromBytesLE_toBytesLE L _ (lt_of_lt_of_le hval hL)
  have hlen : (toBytesLE L (ZMod.val x)).length = L := length_toBytesLE L _
  have hne : ZMod.val x ≠ 0 := fun h0 => hx ((ZMod.val_eq_zero x).mp h0)
  have hcast : ((ZMod.val x : Nat) : ZMod p) = x := ZMod.natCast_rightInverse x
  simp [decodeCanonical, encodeCanonical, hfrom, hlen, hval, hne, hcast]

/-- Canonical decoding fails with `Error.Deserialization` exactly on the
byte strings that are not canonical encodings of nonzero values. -/
theorem decodeCanonical_error_iff (p L : Nat) [NeZero p] (hL : p ≤ 256 ^ L)
    (b : List Byte) :
    decodeCanonical p L b = Except.error Error.Deserialization ↔
      ¬ ∃ x : ZMod p, x ≠ 0 ∧ encodeCanonical p L x = b := by
  by_cases h : b.length = L ∧ fromBytesLE b < p ∧ fromBytesLE b ≠ 0
  · have hok : decodeCanonical p L b = Except.ok ((fromBytesLE b : Nat) : ZMod p) := by
      simp [decodeCanonical, h]
    obtain ⟨hlen, hblt, hbne⟩ := h
    have hval : ZMod.val ((fromBytesLE b : Nat) : ZMod p) = fromBytesLE b :=
      ZMod.val_cast_of_lt hblt
    have hx0 : ((fromBytesLE b : Nat) : ZMod p) ≠ 0 := by
      intro h0
      rw [h0, ZMod.val_zero] at hval
      exact hbne hval.symm
    have henc : encodeCanonical p L ((fromBytesLE b : Nat) : ZMod p) = b := by
      rw [encodeCanonical, hval, ← hlen]
      exact toBytesLE_fromBytesLE b
    rw [hok]
    constructor
    · intro heq
      exact Except.noConfusion heq
    · intro hnex
      exact absurd ⟨_, hx0, henc⟩ hnex
  · have herr : decodeCanonical p L b = Except.error Error.Deserialization := by
      simp only [decodeCanonical, if_neg h]
    rw [herr]
    refine ⟨fun _ => ?_, fun _ => rfl⟩
    rintro ⟨x, hx0, henc⟩
    have hvlt : ZMod.val x < p := ZMod.val_lt x
    have hlen : b.length = L := by
      rw [← henc]
      exact length_toBytesLE L _
    have hfrom : fromBytesLE b = ZMod.val x := by
      rw [← henc]
      exact fromBytesLE_toBytesLE L _ (lt_of_lt_of_le hvlt hL)
    refine h ⟨hlen, ?_, ?_⟩
    · rw [hfrom]
      exact hvlt
    · rw [hfrom]
      exact fun h0 => hx0 ((ZMod.val_eq_zero x).mp h0)

/-- The canonical encoding of zero is rejected by canonical decoding. -/
theorem decodeCanonical_encodeCanonical_zero (p L : Nat) [NeZero p] :
    decodeCanonical p L (encodeCanonical p L 0) = Except.error Error.Deserialization := by
  have h0 : ZMod.val (0 : ZMod p) = 0 := ZMod.val_zero
  have hfrom : fromBytesLE (toBytesLE L 0) = 0 :=
    fromBytesLE_toBytesLE L 0 (pow_pos (by norm_num) L)
  simp [decodeCanonical, encodeCanonical, h0, hfrom]

/-- Claim C1: `deserialize_elem b` fails with a `Deserialization` error
exactly when `b` is not a valid canonical encoding of a non-identity group
element, `deserialize_scalar c` fails with a `Deserialization` error
exactly when `c` is not a valid canonical encoding of a nonzero scalar,
and in particular deserializing the serialized identity element fails with
a `Deserialization` error. -/
theorem claim_C1 (p L : Nat) [Fact p.Prime] (hL : p ≤ 256 ^ L)
    (b c : List Byte) :
    (deserialize_elem p L b = Except.error Error.Deserialization ↔
      ¬ ValidElemEncoding p L b)
    ∧ (deserialize_scalar p L c = Except.error Error.Deserialization ↔
      ¬ ValidScalarEncoding p L c)
    ∧ deserialize_elem p L (serialize_elem p L (identity_elem p)) =
        Except.error Error.Deserialization := by
  refine ⟨?_, ?_, ?_⟩
  · simpa [deserialize_elem, ValidElemEncoding, serialize_elem,
      identity_elem] using decodeCanonical_error_iff p L hL b
  · simpa [deserialize_scalar, ValidScalarEncoding, serialize_scalar,
      zero_scalar] using decodeCanonical_error_iff p L hL c
  · exact decodeCanonical_encodeCanonical_zero p L

/-- Witness for C1 at the backend `p = 5`, `L = 1`. -/
theorem claim_C1_witness :
    Nat.Prime 5 ∧ 5 ≤ 256 ^ 1
    ∧ deserialize_elem 5 1 (serialize_elem 5 1 (identity_elem 5)) =
        Except.error Error.Deserialization := by
  haveI : Fact (Nat.Prime 5) := ⟨by norm_num⟩
  exact ⟨by norm_num, by norm_num, (claim_C1 5 1 (by norm_num) [] []).2.2⟩

/-- Claim C3: serialization round-trips; for every non-identity element
`e`, `deserialize_elem (serialize_elem e)` succeeds and returns `e`, and
for every nonzero scalar `s`, `deserialize_scalar (serialize_scalar s)`
succeeds and returns `s`. -/
theorem claim_C3 (p L : Nat) [Fact p.Prime] (hL : p ≤ 256 ^ L) :
    (∀ e : ZMod p, e ≠ identity_elem p →
      deserialize_elem p L (serialize_elem p L e) = Except.ok e)
    ∧ (∀ s : ZMod p, s ≠ zero_scalar p →
      deserialize_scalar p L (serialize_scalar p L s) = Except.ok s) := by
  constructor
  · intro e he
    exact decodeCanonical_encodeCanonical p L hL e he
  · intro s hs
    exact decodeCanonical_encodeCanonical p L hL s hs

/-- Witness for C3 at `p = 5`, `L = 1`, element and scalar `2`. -/
theorem claim_C3_witness :
    Nat.Prime 5 ∧ 5 ≤ 256 ^ 1 ∧ (2 : ZMod 5) ≠ identity_elem 5
    ∧ deserialize_elem 5 1 (serialize_elem 5 1 2) = Except.ok 2 := by
  have h2 : (2 : ZMod 5) ≠ identity_elem 5 := by decide
  exact ⟨by norm_num, by norm_num, h2,
    (@claim_C3 5 1 ⟨by norm_num⟩ (by norm_num)).1 2 h2⟩

/-- Claim C2: `hash_to_curve`, `hash_to_scalar` and
`hash_to_scalar_with_dst` fail with an `Input` error exactly when the
concatenation of all input parts is empty or longer than 65535 bytes; an
input of total length exactly 65535 succeeds, and one of 65536 bytes or
more fails with an `Input` error. -/
theorem claim_C2 (p : Nat) (cs : HashDescriptor) (hc : HashToCurveInvocable cs)
    (ctx : Mode → List Byte) (input : List (List Byte)) (mode : Mode)
    (dst : List Byte) :
    (hash_to_curve p cs hc ctx input mode = Except.error Error.Input ↔
      (concatParts input).length = 0 ∨ 65535 < (concatParts input).length)
    ∧ (hash_to_scalar p cs hc ctx input mode = Except.error Error.Input ↔
      (concatParts input).length = 0 ∨ 65535 < (concatParts input).length)
    ∧ (hash_to_scalar_with_dst p cs hc input dst = Except.error Error.Input ↔
      (concatParts input).length = 0 ∨ 65535 < (concatParts input).length)
    ∧ ((concatParts input).length = 65535 →
        (∃ e, hash_to_curve p cs hc ctx input mode = Except.ok e)
        ∧ (∃ s, hash_to_scalar p cs hc ctx input mode = Except.ok s)
        ∧ (∃ s, hash_to_scalar_with_dst p cs hc input dst = Except.ok s))
    ∧ (65536 ≤ (concatParts input).length →
        hash_to_curve p cs hc ctx input mode = Except.error Error.Input
        ∧ hash_to_scalar p cs hc ctx input mode = Except.error Error.Input
        ∧ hash_to_scalar_with_dst p cs hc input dst = Except.error Error.Input) := by
  rw [concatParts_length]
  by_cases h : inputLenSum input = 0 ∨ 65535 < inputLenSum input
  · have h1 : hash_to_curve p cs hc ctx input mode = Except.error Error.Input := by
      simp [hash_to_curve, h]
    have h3 : hash_to_scalar_with_dst p cs hc input dst = Except.error Error.Input := by
      simp [hash_to_scalar_with_dst, h]
    have h2 : hash_to_scalar p cs hc ctx input mode = Except.error Error.Input := by
      simp [hash_to_scalar, hash_to_scalar_with_dst, h]
    refine ⟨iff_of_true h1 h, iff_of_true h2 h, iff_of_true h3 h, ?_,
      fun _ => ⟨h1, h2, h3⟩⟩
    intro h65
    exact absurd h (by omega)
  · have h1 : hash_to_curve p cs hc ctx input mode =
        Except.ok (expandReduce p (concatParts input) (STR_HASH_TO_GROUP ++ ctx mode)) := by
      simp [hash_to_curve, h]
    have h3 : hash_to_scalar_with_dst p cs hc input dst =
        Except.ok (expandReduce p (concatParts input) dst) := by
      simp [hash_to_scalar_with_dst, h]
    have h2 : hash_to_scalar p cs hc ctx input mode =
        Except.ok (expandReduce p (concatParts input) (STR_HASH_TO_SCALAR ++ ctx mode)) := by
      simp [hash_to_scalar, hash_to_scalar_with_dst, h]
    refine ⟨iff_of_false (by simp [h1]) h, iff_of_false (by simp [h2]) h,
      iff_of_false (by simp [h3]) h,
      fun _ => ⟨⟨_, h1⟩, ⟨_, h2⟩, ⟨_, h3⟩⟩, fun h66 => absurd h66 (by omega)⟩

/-- Witness for C2 at `p = 5` with the SHA-512 descriptor and the one-byte
input `[[0]]`. -/
theorem claim_C2_witness :
    hash_to_scalar_with_dst 5 sha512Desc sha512Desc_invocable [[0]] [] =
        Except.error Error.Input ↔
      (concatParts [[(0 : Byte)]]).length = 0 ∨
        65535 < (concatParts [[(0 : Byte)]]).length :=
  (claim_C2 5 sha512Desc sha512Desc_invocable (fun _ => []) [[0]] Mode.Base []).2.2.1

/-- Claim C4: `hash_to_scalar input mode` equals
`hash_to_scalar_with_dst input dst` where `dst` is the 13-byte
`STR_HASH_TO_SCALAR` followed by the context string of the mode. -/
theorem claim_C4 (p : Nat) (cs : HashDescriptor) (hc : HashToCurveInvocable cs)
    (ctx : Mode → List Byte) (input : List (List Byte)) (mode : Mode) :
    hash_to_scalar p cs hc ctx input mode =
      hash_to_scalar_with_dst p cs hc input (STR_HASH_TO_SCALAR ++ ctx mode)
    ∧ STR_HASH_TO_SCALAR.length = 13 :=
  ⟨rfl, by decide⟩

/-- Witness for C4 at `p = 5` with the SHA-512 descriptor. -/
theorem claim_C4_witness :
    hash_to_scalar 5 sha512Desc sha512Desc_invocable (fun _ => [0]) [[1]] Mode.Base =
      hash_to_scalar_with_dst 5 sha512Desc sha512Desc_invocable [[1]]
        (STR_HASH_TO_SCALAR ++ (fun _ : Mode => [(0 : Byte)]) Mode.Base)
    ∧ STR_HASH_TO_SCALAR.length = 13 :=
  claim_C4 5 sha512Desc sha512Desc_invocable (fun _ => [0]) [[1]] Mode.Base

/-- Claim C5: the domain-separation prefix constants are the exact ASCII
literals; `STR_HASH_TO_SCALAR` is the 13 bytes of `HashToScalar-` and
`STR_HASH_TO_GROUP` is the 12 bytes of `HashToGroup-`. -/
theorem claim_C5 :
    STR_HASH_TO_SCALAR =
      [72, 97, 115, 104, 84, 111, 83, 99, 97, 108, 97, 114, 45]
    ∧ STR_HASH_TO_SCALAR.length = 13
    ∧ STR_HASH_TO_GROUP =
      [72, 97, 115, 104, 84, 111, 71, 114, 111, 117, 112, 45]
    ∧ STR_HASH_TO_GROUP.length = 12 := by
  refine ⟨by decide, by decide, by decide, by decide⟩

/-- Claim C6: scalar inversion is an involution on nonzero scalars, and
every nonzero scalar has exactly one multiplicative inverse. -/
theorem claim_C6 (p : Nat) [Fact p.Prime] (s : ZMod p) (hs : s ≠ 0) :
    invert_scalar p (invert_scalar p s) = s
    ∧ ∀ t : ZMod p, s * t = 1 ↔ t = invert_scalar p s := by
  constructor
  · simp [invert_scalar]
  · intro t
    constructor
    · intro h
      have h2 := inv_eq_of_mul_eq_one_right h
      simpa [invert_scalar] using h2.symm
    · rintro rfl
      simpa [invert_scalar] using mul_inv_cancel₀ hs

/-- Witness for C6 at `p = 5`, `s = 2`. -/
theorem claim_C6_witness :
    Nat.Prime 5 ∧ (2 : ZMod 5) ≠ 0
    ∧ invert_scalar 5 (invert_scalar 5 2) = 2 := by
  have h2 : (2 : ZMod 5) ≠ 0 := by decide
  exact ⟨by norm_num, h2, (@claim_C6 5 ⟨by norm_num⟩ 2 h2).1⟩

/-- Claim C7: the hash operations can only be invoked with evidence of the
where clause `HashToCurveInvocable`, so at every call the output size of
the hash is below 256 bytes and at most the block size. -/
theorem claim_C7 (cs : HashDescriptor) (hc : HashToCurveInvocable cs) :
    cs.outputSize < 256 ∧ cs.outputSize ≤ cs.blockSize :=
  ⟨hc.1, hc.2⟩

/-- Witness for C7 at the SHA-512 descriptor. -/
theorem claim_C7_witness :
    sha512Desc.outputSize < 256 ∧ sha512Desc.outputSize ≤ sha512Desc.blockSize :=
  claim_C7 sha512Desc sha512Desc_invocable

/-- Claim C9: `invert_scalar` is total at the interface; its type has no
error channel, every nonzero scalar maps to its actual inverse, and the
zero scalar maps to the implementation-defined value zero rather than to
an error. -/
theorem claim_C9 (p : Nat) [Fact p.Prime] :
    (∀ s : ZMod p, s ≠ zero_scalar p → s * invert_scalar p s = 1)
    ∧ invert_scalar p (zero_scalar p) = zero_scalar p := by
  constructor
  · intro s hs
    have hs0 : s ≠ 0 := by simpa [zero_scalar] using hs
    simpa [invert_scalar] using mul_inv_cancel₀ hs0
  · simp [invert_scalar, zero_scalar]

/-- Witness for C9 at `p = 5`. -/
theorem claim_C9_witness :
    Nat.Prime 5 ∧ invert_scalar 5 (zero_scalar 5) = zero_scalar 5 := by
  haveI : Fact (Nat.Prime 5) := ⟨by norm_num⟩
  exact ⟨by norm_num, (claim_C9 5).2⟩

/-- Claim C10: `random_scalar` is infallible at the interface; for every
caller-supplied random source it returns a scalar directly (its type has
no error variant), and the returned value is a reduced scalar of the
field. -/
theorem claim_C10 (p L : Nat) [NeZero p] (rng : Nat → Byte) :
    ZMod.val (random_scalar p L rng) < p :=
  ZMod.val_lt _

/-- Witness for C10 at `p = 5`, `L = 1`, the all-zero random source. -/
theorem claim_C10_witness :
    (5 : Nat) ≠ 0 ∧ ZMod.val (random_scalar 5 1 (fun _ => 0)) < 5 :=
  ⟨by norm_num, claim_C10 5 1 (fun _ => 0)⟩

end Voprf
